import Mathlib

/-!
Verification of the chapter-segmentation and TTS-chunking core of
docx2mp3.py (audiobookeasy).

Strings are modelled as `List Char` (Python `str`).  Every definition below
is a direct translation of the corresponding Python function in
src/docx2mp3.py; comments name the source lines.
-/

/-! ## Character classes -/

/-- Code points stripped by Python `str.strip()` and matched by `\s`
(whitespace: ASCII controls 9-13, 28-31, space, NEL, NBSP and the Unicode
space separators). -/
def pySpaceCodes : List Nat :=
  [9, 10, 11, 12, 13, 28, 29, 30, 31, 32, 133, 160, 5760,
   8192, 8193, 8194, 8195, 8196, 8197, 8198, 8199, 8200, 8201, 8202,
   8232, 8233, 8239, 8287, 12288]

def pySpace (c : Char) : Bool := pySpaceCodes.contains c.toNat

/-- Line boundaries recognised by Python `str.splitlines()`. -/
def pyBreakCodes : List Nat := [10, 11, 12, 13, 28, 29, 30, 133, 8232, 8233]

def pyBreak (c : Char) : Bool := pyBreakCodes.contains c.toNat

/-- Python `\w` (ASCII range): letters, digits and underscore. -/
def pyWordChar (c : Char) : Bool := c.isAlphanum || c = '_'

def pyDigit (c : Char) : Bool := c.isDigit

/-! ## Python string primitives -/

/-- `str.lstrip()` -/
def pyLStrip (l : List Char) : List Char := l.dropWhile pySpace

/-- `str.rstrip()` -/
def pyRStrip (l : List Char) : List Char := l.rdropWhile pySpace

/-- `str.strip()` -/
def pyStrip (l : List Char) : List Char := pyRStrip (pyLStrip l)

/-- `str.splitlines()`: the Bool records that the previous character was a
carriage return, whose following newline is consumed silently (the CRLF
pair is a single boundary).  A boundary emits the accumulated line; no
trailing empty line is produced for a terminal boundary. -/
def splitlinesAux : Bool → List Char → List Char → List (List Char)
  | _, acc, [] => if acc.isEmpty then [] else [acc.reverse]
  | skipNL, acc, c :: rest =>
    if skipNL && c = '\n' then splitlinesAux false acc rest
    else if c = '\r' then acc.reverse :: splitlinesAux true [] rest
    else if pyBreak c then acc.reverse :: splitlinesAux false [] rest
    else splitlinesAux false (c :: acc) rest

def pySplitlines (l : List Char) : List (List Char) := splitlinesAux false [] l

/-! ## Heading-keyword triggers (the regexes of lines 99 and 137) -/

/-- Case-insensitive literal prefix match (`re.IGNORECASE` on an ASCII
keyword). -/
def startsWithCI : List Char → List Char → Bool
  | [], _ => true
  | _ :: _, [] => false
  | p :: ps, c :: cs => (p.toLower = c.toLower) && startsWithCI ps cs

def headSpace : List Char → Bool
  | [] => false
  | c :: _ => pySpace c

def headDigit : List Char → Bool
  | [] => false
  | c :: _ => pyDigit c

def headNonWord : List Char → Bool
  | [] => true
  | c :: _ => !pyWordChar c

/-- `kw\b` anchored at the start of `line`. -/
def matchKwB (kw line : List Char) : Bool :=
  startsWithCI kw line && headNonWord (line.drop kw.length)

/-- `kw\s+\d+` anchored at the start of `line`. -/
def matchKwNum (kw line : List Char) : Bool :=
  startsWithCI kw line && headSpace (line.drop kw.length) &&
    headDigit ((line.drop kw.length).dropWhile pySpace)

/-- Line 137: `re.match(r"^(Luku\s+\d+|Chapter\s+\d+|Osa\s+\d+|Luku\b|Chapter\b|Osa\b)", line, re.IGNORECASE)`. -/
def txtTrigger (line : List Char) : Bool :=
  matchKwNum "Luku".data line || matchKwNum "Chapter".data line ||
    matchKwNum "Osa".data line || matchKwB "Luku".data line ||
    matchKwB "Chapter".data line || matchKwB "Osa".data line

/-- Python substring containment (`needle in hay`). -/
def containsSub : List Char → List Char → Bool
  | needle, [] => needle.isEmpty
  | needle, c :: rest => needle.isPrefixOf (c :: rest) || containsSub needle rest

/-- Line 98: `any(h in style for h in ("Heading 1", "Heading 2", "Otsikko 1", "Otsikko 2"))`. -/
def docxHeading (style : List Char) : Bool :=
  containsSub "Heading 1".data style || containsSub "Heading 2".data style ||
    containsSub "Otsikko 1".data style || containsSub "Otsikko 2".data style

/-- Line 99: `re.match(r"^(Luku|Chapter|Osa)\b", text, re.IGNORECASE)`. -/
def docxKw (text : List Char) : Bool :=
  matchKwB "Luku".data text || matchKwB "Chapter".data text || matchKwB "Osa".data text

/-! ## Blank-line collapsing: `re.sub(r"\n{3,}", "\n\n", s)` (lines 112, 147) -/

def collapseRun (n : Nat) : List Char :=
  if 3 ≤ n then ['\n', '\n'] else List.replicate n '\n'

def collapseBlankAux : Nat → List Char → List Char
  | n, [] => collapseRun n
  | n, c :: rest =>
    if c = '\n' then collapseBlankAux (n + 1) rest
    else collapseRun n ++ c :: collapseBlankAux 0 rest

def collapseBlank (l : List Char) : List Char := collapseBlankAux 0 l

/-! ## Chapters (lines 64-148) -/

structure Chapter where
  title : List Char
  text : List Char
deriving DecidableEq

/-- Python `a or b` on strings: `b` when `a` is `None` or empty. -/
def titleOr : Option (List Char) → List Char → List Char
  | none, d => d
  | some s, d => if s.isEmpty then d else s

def nlSep : List Char := ['\n']

def nnSep : List Char := ['\n', '\n']

/-- `f"Chapter {n}"` (line 132). -/
def txtDefaultTitle (n : Nat) : List Char := "Chapter ".data ++ (Nat.repr n).data

/-- The `flush()` closure of `read_txt_chapters` (lines 128-134): append a
chapter only when the joined buffer strips to something non-empty. -/
def txtFlushAdd (title : Option (List Char)) (buffer : List (List Char))
    (chapters : List Chapter) : List Chapter :=
  let content := pyStrip (List.intercalate nlSep buffer)
  if content.isEmpty then chapters
  else chapters ++ [⟨titleOr title (txtDefaultTitle (chapters.length + 1)), content⟩]

/-- The line loop of `read_txt_chapters` (lines 136-144), final flush
included. -/
def txtLoop : Option (List Char) → List (List Char) → List Chapter →
    List (List Char) → List Chapter
  | title, buffer, chapters, [] =>
    if buffer.isEmpty then chapters else txtFlushAdd title buffer chapters
  | title, buffer, chapters, line :: rest =>
    if txtTrigger line then
      txtLoop (some (pyStrip line)) []
        (if buffer.isEmpty then chapters else txtFlushAdd title buffer chapters) rest
    else txtLoop title (buffer ++ [line]) chapters rest

/-- `read_txt_chapters` (lines 115-148); the file read is replaced by the
raw text argument. -/
def read_txt_chapters (txt : List Char) : List Chapter :=
  let lines := (pySplitlines txt).map pyRStrip
  let chapters := txtLoop none [] [] lines
  if chapters.isEmpty then [⟨"Book".data, pyStrip (collapseBlank txt)⟩] else chapters

/-- The `flush()` closure of `read_docx_chapters` (lines 89-95). -/
def docxFlushAdd (title : Option (List Char)) (buffer : List (List Char))
    (chapters : List Chapter) : List Chapter :=
  let content := pyStrip (List.intercalate nnSep buffer)
  if content.isEmpty then chapters
  else chapters ++ [⟨titleOr title "Untitled".data, content⟩]

/-- The item loop of `read_docx_chapters` (lines 97-107), final flush
included. -/
def docxLoop : Option (List Char) → List (List Char) → List Chapter →
    List (List Char × List Char) → List Chapter
  | title, buffer, chapters, [] =>
    if buffer.isEmpty then chapters else docxFlushAdd title buffer chapters
  | title, buffer, chapters, (style, text) :: rest =>
    if docxHeading style || docxKw text then
      docxLoop (some text) []
        (if buffer.isEmpty then chapters else docxFlushAdd title buffer chapters) rest
    else docxLoop title (buffer ++ [text]) chapters rest

/-- `read_docx_chapters` (lines 69-113); the python-docx extraction is
replaced by the list of `(style name, paragraph text)` pairs it yields.
Lines 79-83 build `items` by stripping each text and keeping the non-empty
ones. -/
def docxItems (paras : List (List Char × List Char)) : List (List Char × List Char) :=
  (paras.map (fun p => (p.1, pyStrip p.2))).filter (fun p => !p.2.isEmpty)

def read_docx_chapters (paras : List (List Char × List Char)) : List Chapter :=
  let items := docxItems paras
  let chapters := docxLoop none [] [] items
  if chapters.isEmpty then
    [⟨"Book".data, pyStrip (collapseBlank (List.intercalate nnSep (items.map (fun p => p.2))))⟩]
  else chapters

/-! ## Chunking: `split_chunks` (lines 159-191) -/

/-- `text.split("\n\n")` (literal, non-overlapping, left to right).  The
Bool records a pending single newline that has not yet paired up. -/
def splitNNAux : Bool → List Char → List Char → List (List Char)
  | pend, acc, [] => [(if pend then '\n' :: acc else acc).reverse]
  | pend, acc, c :: rest =>
    if pend then
      if c = '\n' then acc.reverse :: splitNNAux false [] rest
      else splitNNAux false (c :: '\n' :: acc) rest
    else
      if c = '\n' then splitNNAux true acc rest
      else splitNNAux false (c :: acc) rest

def pySplitNN (l : List Char) : List (List Char) := splitNNAux false [] l

/-- Terminal punctuation of the sentence regex `(?<=[.!?…])\s+`. -/
def isTermPunct (c : Char) : Bool := c = '.' || c = '!' || c = '?' || c = '…'

/-- `re.split(r"(?<=[.!?…])\s+", para)`: the Bool records that we are
inside a whitespace run that follows terminal punctuation (the separator
being consumed).  A separator reaching the end of input yields a trailing
empty field, as `re.split` does. -/
def sentAux : Bool → List Char → List Char → List (List Char)
  | false, acc, [] => [acc.reverse]
  | true, acc, [] => [acc.reverse, []]
  | false, acc, c :: rest =>
    if isTermPunct c && headSpace rest then sentAux true (c :: acc) rest
    else sentAux false (c :: acc) rest
  | true, acc, c :: rest =>
    if pySpace c then sentAux true acc rest
    else acc.reverse :: sentAux false [c] rest

def splitSentences (l : List Char) : List (List Char) := sentAux false [] l

/-- Lines 186-187: `for i in range(0, len(s), max_chars): parts.append(s[i : i + max_chars])`.
(For `m = 0` Python raises `ValueError`; all claims assume `0 < m`.) -/
def hardSlices (m : Nat) (s : List Char) : List (List Char) :=
  (List.range ((s.length + m - 1) / m)).map (fun i => (s.drop (i * m)).take m)

/-- The sentence loop of `split_chunks` (lines 174-190), final buffer flush
included.  `f"{buf} {s}".strip()` is `pyStrip (buf ++ ' ' :: s)`. -/
def chunkLoop (m : Nat) : List Char → List (List Char) → List (List Char)
  | buf, [] => if buf.isEmpty then [] else [buf]
  | buf, s :: rest =>
    if s.isEmpty then chunkLoop m buf rest
    else if buf.length + 1 + s.length ≤ m then
      chunkLoop m (if buf.isEmpty then s else pyStrip (buf ++ '\x20' :: s)) rest
    else
      (if buf.isEmpty then [] else [buf]) ++
        (if s.length ≤ m then chunkLoop m s rest
         else hardSlices m s ++ chunkLoop m [] rest)

/-- One iteration of the paragraph loop (lines 165-190). -/
def paraChunks (m : Nat) (para : List Char) : List (List Char) :=
  let p := pyStrip para
  if p.isEmpty then []
  else if p.length ≤ m then [p]
  else chunkLoop m [] (splitSentences p)

/-- `split_chunks` (lines 159-191). -/
def split_chunks (text : List Char) (max_chars : Nat) : List (List Char) :=
  let parts := ((pySplitNN text).map (paraChunks max_chars)).flatten
  if parts.isEmpty then [text] else parts

/-! ## slugify (lines 43-47) -/

/-- The character class `[A-Za-z0-9_.-]`. -/
def goodChar (c : Char) : Bool :=
  decide ((65 ≤ c.toNat ∧ c.toNat ≤ 90) ∨ (97 ≤ c.toNat ∧ c.toNat ≤ 122) ∨
    (48 ≤ c.toNat ∧ c.toNat ≤ 57) ∨ c.toNat = 95 ∨ c.toNat = 46 ∨ c.toNat = 45)

/-- `re.sub(r"[^A-Za-z0-9_.-]+", "_", s)`: each maximal run of characters
outside the class becomes a single underscore (the Bool records being
inside such a run). -/
def replaceBadAux : Bool → List Char → List Char
  | _, [] => []
  | inBad, c :: rest =>
    if goodChar c then c :: replaceBadAux false rest
    else if inBad then replaceBadAux true rest
    else '_' :: replaceBadAux true rest

def replaceBad (l : List Char) : List Char := replaceBadAux false l

/-- `re.sub(r"_+", "_", s)`. -/
def collapseUAux : Bool → List Char → List Char
  | _, [] => []
  | prevU, c :: rest =>
    if c = '_' then
      (if prevU then collapseUAux true rest else '_' :: collapseUAux true rest)
    else c :: collapseUAux false rest

def collapseU (l : List Char) : List Char := collapseUAux false l

def isDotU (c : Char) : Bool := c = '.' || c = '_'

/-- `str.strip("._")`. -/
def stripDotU (l : List Char) : List Char := (l.dropWhile isDotU).rdropWhile isDotU

/-- `slugify` (lines 43-47). -/
def slugify (name : List Char) : List Char :=
  let safe := stripDotU (collapseU (replaceBad (pyStrip name)))
  if safe.isEmpty then "chapter".data else safe

/-- The slug rule exactly as the spec words it (C8): no initial whitespace
strip, only replace-runs, collapse underscores, strip `.`/`_`, placeholder
when empty. -/
def slugifyClaim (name : List Char) : List Char :=
  let safe := stripDotU (collapseU (replaceBad name))
  if safe.isEmpty then "chapter".data else safe

/-! ## ensure_percent (lines 49-59) -/

/-- `s.lower().endswith("db")`. -/
def endsDb (l : List Char) : Bool :=
  match l.reverse with
  | b :: d :: _ => (b.toLower = 'b') && (d.toLower = 'd')
  | _ => false

/-- `s.endswith("%")`. -/
def endsPct (l : List Char) : Bool :=
  match l.reverse with
  | c :: _ => c = '%'
  | _ => false

/-- `s[:-2]`. -/
def dropLast2 (l : List Char) : List Char := l.take (l.length - 2)

/-- `ensure_percent` (lines 49-59). -/
def ensure_percent (val : List Char) : List Char :=
  let s := pyStrip val
  let s2 := if endsDb s then dropLast2 s else s
  if endsPct s2 then s2 else s2 ++ ['%']

/-- The normalization rule exactly as the spec words it (C9): strip a
trailing case-insensitive `db`, then append `%` unless already present —
with no initial whitespace strip. -/
def ensurePercentClaim (val : List Char) : List Char :=
  let s2 := if endsDb val then dropLast2 val else val
  if endsPct s2 then s2 else s2 ++ ['%']

/-! ## Whitespace-insensitive content -/

/-- The non-whitespace characters of a string, in order. -/
def nws (l : List Char) : List Char := l.filter (fun c => !pySpace c)

def nwsJoin (xs : List (List Char)) : List Char := (xs.map nws).flatten

/-! ## Basic lemmas about the Python string primitives -/

theorem length_pyStrip_le (l : List Char) : (pyStrip l).length ≤ l.length := by
  have h1 : (pyLStrip l).length ≤ l.length := (List.dropWhile_sublist _).length_le
  have h2 : (pyStrip l).length ≤ (pyLStrip l).length :=
    (List.rdropWhile_prefix _ _).sublist.length_le
  omega

theorem nws_append (a b : List Char) : nws (a ++ b) = nws a ++ nws b := by
  simp [nws]

theorem nws_reverse (l : List Char) : nws l.reverse = (nws l).reverse := by
  simp [nws]

theorem nws_all_space (l : List Char) (h : ∀ c ∈ l, pySpace c) : nws l = [] := by
  simp only [nws, List.filter_eq_nil_iff]
  intro a ha
  simp [h a ha]

theorem nws_dropWhile_space (l : List Char) : nws (l.dropWhile pySpace) = nws l := by
  conv_rhs => rw [← List.takeWhile_append_dropWhile pySpace l]
  rw [nws_append, nws_all_space _ (fun c hc => List.mem_takeWhile_imp hc), List.nil_append]

theorem nws_rdropWhile_space (l : List Char) : nws (l.rdropWhile pySpace) = nws l := by
  rw [List.rdropWhile, nws_reverse, nws_dropWhile_space, nws_reverse, List.reverse_reverse]

theorem nws_pyStrip (l : List Char) : nws (pyStrip l) = nws l := by
  rw [pyStrip, pyRStrip, pyLStrip, nws_rdropWhile_space, nws_dropWhile_space]

theorem pyStrip_eq_nil_iff (l : List Char) : pyStrip l = [] ↔ ∀ c ∈ l, pySpace c := by
  rw [pyStrip, pyRStrip, List.rdropWhile_eq_nil_iff]
  constructor
  · intro h c hc
    rcases List.mem_append.1 ((List.takeWhile_append_dropWhile pySpace l) ▸ hc) with h1 | h2
    · exact List.mem_takeWhile_imp h1
    · exact h c h2
  · intro h c hc
    exact h c ((List.dropWhile_sublist _).subset hc)

theorem exists_nonspace_of_pyStrip_ne_nil (l : List Char) (h : pyStrip l ≠ []) :
    ∃ c ∈ pyStrip l, ¬ pySpace c := by
  have hy : pyLStrip l ≠ [] := by
    intro he
    exact h (by simp [pyStrip, pyRStrip, he, List.rdropWhile_nil])
  have hhead : pySpace ((pyLStrip l).head hy) = false := List.head_dropWhile_not pySpace l hy
  obtain ⟨t, ht⟩ := List.rdropWhile_prefix pySpace (pyLStrip l)
  have hps : pyStrip l ++ t = pyLStrip l := ht
  have hh : (pyStrip l).head? = (pyLStrip l).head? := by
    rw [← hps]
    rcases hx : pyStrip l with _ | ⟨a, s⟩
    · exact absurd hx h
    · simp
  refine ⟨(pyStrip l).head h, List.head_mem h, ?_⟩
  have e : some ((pyStrip l).head h) = some ((pyLStrip l).head hy) := by
    rw [← List.head?_eq_head h, ← List.head?_eq_head hy, hh]
  rw [Option.some.inj e]
  simp [hhead]

theorem nws_flatten (xs : List (List Char)) : nws xs.flatten = nwsJoin xs := by
  induction xs with
  | nil => simp [nws, nwsJoin]
  | cons x xs ih => simp only [List.flatten_cons, nws_append, nwsJoin, List.map_cons,
      List.flatten_cons] at *; rw [ih]

theorem nwsJoin_append (a b : List (List Char)) :
    nwsJoin (a ++ b) = nwsJoin a ++ nwsJoin b := by
  simp [nwsJoin]

theorem nws_intercalate_space (xs : List (List Char)) :
    nws (List.intercalate ['\x20'] xs) = nwsJoin xs := by
  induction xs with
  | nil => simp [List.intercalate, nws, nwsJoin]
  | cons x xs ih =>
    cases xs with
    | nil => simp [List.intercalate, List.intersperse, nws, nwsJoin]
    | cons y ys =>
      simp only [List.intercalate, List.intersperse] at ih ⊢
      simp only [List.flatten_cons, nws_append, nwsJoin, List.map_cons, List.flatten_cons] at *
      rw [ih]
      have : nws ['\x20'] = [] := by decide
      simp [this]

theorem mem_intercalate (sep : List Char) (xs : List (List Char)) (c : Char)
    (h : c ∈ List.intercalate sep xs) : c ∈ sep ∨ ∃ x ∈ xs, c ∈ x := by
  induction xs with
  | nil => simp [List.intercalate] at h
  | cons x xs ih =>
    cases xs with
    | nil =>
      simp [List.intercalate, List.intersperse] at h
      exact Or.inr ⟨x, by simp, h⟩
    | cons y ys =>
      simp only [List.intercalate, List.intersperse, List.flatten_cons, List.mem_append] at h
      rcases h with h | h | h
      · exact Or.inr ⟨x, by simp, h⟩
      · exact Or.inl h
      · rcases ih (by simpa [List.intercalate] using h) with h1 | ⟨z, hz, hcz⟩
        · exact Or.inl h1
        · exact Or.inr ⟨z, by simp [hz], hcz⟩

/-! ## Chunk length bounds -/

theorem hardSlices_length_le (m : Nat) (s : List Char) :
    ∀ c ∈ hardSlices m s, c.length ≤ m := by
  intro c hc
  simp only [hardSlices, List.mem_map] at hc
  obtain ⟨i, _, rfl⟩ := hc
  exact List.length_take_le m _

theorem chunkLoop_length_le (m : Nat) :
    ∀ ss buf, buf.length ≤ m → ∀ c ∈ chunkLoop m buf ss, c.length ≤ m := by
  intro ss
  induction ss with
  | nil =>
    intro buf hb c hc
    simp only [chunkLoop] at hc
    split at hc
    · simp at hc
    · rw [List.mem_singleton] at hc
      exact hc ▸ hb
  | cons s rest ih =>
    intro buf hb c hc
    simp only [chunkLoop] at hc
    split at hc
    · exact ih buf hb c hc
    · split at hc
      · rename_i hse hfit
        refine ih _ ?_ c hc
        split
        · rename_i hbe
          have : buf.length = 0 := by simp [List.isEmpty_iff] at hbe; simp [hbe]
          omega
        · have h1 : (pyStrip (buf ++ '\x20' :: s)).length ≤ (buf ++ '\x20' :: s).length :=
            length_pyStrip_le _
          simp only [List.length_append, List.length_cons] at h1
          omega
      · rename_i hse hfit
        rw [List.mem_append] at hc
        rcases hc with hc | hc
        · split at hc
          · simp at hc
          · rw [List.mem_singleton] at hc
            exact hc ▸ hb
        · split at hc
          · rename_i hsm
            exact ih s hsm c hc
          · rw [List.mem_append] at hc
            rcases hc with hc | hc
            · exact hardSlices_length_le m s c hc
            · exact ih [] (Nat.zero_le m) c hc

theorem paraChunks_length_le (m : Nat) (para : List Char) :
    ∀ c ∈ paraChunks m para, c.length ≤ m := by
  intro c hc
  simp only [paraChunks] at hc
  split at hc
  · simp at hc
  · split at hc
    · rename_i hpe hpm
      rw [List.mem_singleton] at hc
      exact hc ▸ hpm
    · exact chunkLoop_length_le m _ [] (Nat.zero_le m) c hc

/-! ## Chunk content preservation -/

theorem pySpace_nl : pySpace '\n' = true := by decide

theorem nws_cons (c : Char) (l : List Char) :
    nws (c :: l) = if pySpace c then nws l else c :: nws l := by
  by_cases h : pySpace c <;> simp [nws, List.filter_cons, h]

theorem nwsJoin_cons (x : List Char) (xs : List (List Char)) :
    nwsJoin (x :: xs) = nws x ++ nwsJoin xs := by
  simp [nwsJoin]

theorem nwsJoin_flatten (XS : List (List (List Char))) :
    nwsJoin XS.flatten = (XS.map nwsJoin).flatten := by
  induction XS with
  | nil => simp [nwsJoin]
  | cons X XS ih =>
    simp only [List.flatten_cons, List.map_cons]
    rw [nwsJoin_append, ih]

theorem nws_nil : nws [] = [] := rfl

theorem nws_nl : nws ['\n'] = [] := by decide

theorem nws_sp : nws ['\x20'] = [] := by decide

theorem pySpace_sp : pySpace '\x20' = true := by decide

theorem splitNNAux_nws : ∀ (l : List Char) (pend : Bool) (acc : List Char),
    nwsJoin (splitNNAux pend acc l) = nws acc.reverse ++ nws l := by
  intro l
  induction l with
  | nil =>
    intro pend acc
    cases pend <;>
      simp [splitNNAux, nwsJoin, nws_nil, nws_append, nws_nl, nws_cons, pySpace_nl]
  | cons c rest ih =>
    intro pend acc
    cases pend with
    | true =>
      by_cases hc : c = '\n'
      · simp only [splitNNAux, if_pos rfl, hc, if_pos trivial, ite_true]
        rw [nwsJoin_cons, ih]
        simp [nws_cons, pySpace_nl, nws_nil]
      · simp only [splitNNAux, ite_true, if_neg hc]
        rw [ih]
        by_cases hs : pySpace c <;>
          simp [nws_cons, nws_append, nws_nil, nws_nl, nws_reverse, pySpace_nl, hs,
            List.append_assoc]
    | false =>
      by_cases hc : c = '\n'
      · simp only [splitNNAux, Bool.false_eq_true, ite_false, hc, ite_true]
        rw [ih]
        simp [nws_cons, pySpace_nl]
      · simp only [splitNNAux, Bool.false_eq_true, ite_false, if_neg hc]
        rw [ih]
        by_cases hs : pySpace c <;>
          simp [nws_cons, nws_append, nws_nil, nws_reverse, hs, List.append_assoc]

theorem sentAux_nws : ∀ (l : List Char) (b : Bool) (acc : List Char),
    nwsJoin (sentAux b acc l) = nws acc.reverse ++ nws l := by
  intro l
  induction l with
  | nil =>
    intro b acc
    cases b <;> simp [sentAux, nwsJoin, nws_nil, nws_append]
  | cons c rest ih =>
    intro b acc
    cases b with
    | false =>
      by_cases hc : isTermPunct c && headSpace rest
      · simp only [sentAux, if_pos hc]
        rw [ih]
        by_cases hs : pySpace c <;>
          simp [nws_cons, nws_append, nws_nil, nws_reverse, hs, List.append_assoc]
      · simp only [sentAux, if_neg hc]
        rw [ih]
        by_cases hs : pySpace c <;>
          simp [nws_cons, nws_append, nws_nil, nws_reverse, hs, List.append_assoc]
    | true =>
      by_cases hs : pySpace c
      · simp only [sentAux, if_pos hs]
        rw [ih]
        simp [nws_cons, hs]
      · simp only [sentAux, if_neg hs]
        rw [nwsJoin_cons, ih]
        simp [nws_cons, nws_nil, nws_reverse, hs]

theorem splitSentences_nws (l : List Char) : nwsJoin (splitSentences l) = nws l := by
  rw [splitSentences, sentAux_nws]
  simp [nws_nil]

/-! ## Hard slices reassemble to the sliced sentence -/

theorem flatten_range_slices (s : List Char) (m : Nat) :
    ∀ n, ((List.range n).map (fun i => (s.drop (i * m)).take m)).flatten = s.take (n * m) := by
  intro n
  induction n with
  | zero => simp
  | succ n ih =>
    rw [List.range_succ, List.map_append, List.flatten_append, ih]
    simp only [List.map_cons, List.map_nil, List.flatten_cons, List.flatten_nil,
      List.append_nil]
    rw [Nat.succ_mul, List.take_add]

theorem flatten_hardSlices (m : Nat) (s : List Char) (hm : 0 < m) :
    (hardSlices m s).flatten = s := by
  rw [hardSlices, flatten_range_slices]
  apply List.take_of_length_le
  have hd := Nat.div_add_mod (s.length + m - 1) m
  have hmod : (s.length + m - 1) % m < m := Nat.mod_lt _ hm
  rw [Nat.mul_comm]
  generalize hK : m * ((s.length + m - 1) / m) = K at hd ⊢
  omega

theorem nwsJoin_hardSlices (m : Nat) (s : List Char) (hm : 0 < m) :
    nwsJoin (hardSlices m s) = nws s := by
  rw [← nws_flatten, flatten_hardSlices m s hm]

/-! ## Greedy sentence accumulation preserves content -/

theorem chunkLoop_nws (m : Nat) (hm : 0 < m) :
    ∀ (ss : List (List Char)) (buf : List Char),
      nwsJoin (chunkLoop m buf ss) = nws buf ++ nwsJoin ss := by
  intro ss
  induction ss with
  | nil =>
    intro buf
    by_cases hb : buf.isEmpty
    · rw [List.isEmpty_iff] at hb
      simp [chunkLoop, hb, nwsJoin, nws_nil]
    · simp only [chunkLoop, if_neg hb]
      simp [nwsJoin]
  | cons s rest ih =>
    intro buf
    by_cases hse : s.isEmpty
    · rw [List.isEmpty_iff] at hse
      simp only [chunkLoop, hse, List.isEmpty_nil, ite_true]
      rw [ih]
      simp [nwsJoin_cons, nws_nil]
    · simp only [chunkLoop, if_neg hse]
      by_cases hfit : buf.length + 1 + s.length ≤ m
      · rw [if_pos hfit, ih]
        by_cases hb : buf.isEmpty
        · rw [List.isEmpty_iff] at hb
          simp [hb, nwsJoin_cons, nws_nil]
        · rw [if_neg hb, nws_pyStrip, nws_append, nwsJoin_cons]
          simp [nws_cons, nws_sp, pySpace_sp, List.append_assoc]
      · rw [if_neg hfit]
        rw [nwsJoin_append]
        by_cases hsm : s.length ≤ m
        · rw [if_pos hsm, ih]
          by_cases hb : buf.isEmpty
          · rw [List.isEmpty_iff] at hb
            simp [hb, nwsJoin, nwsJoin_cons, nws_nil]
          · rw [if_neg hb]
            simp [nwsJoin_cons, nwsJoin, List.append_assoc]
        · rw [if_neg hsm, nwsJoin_append, nwsJoin_hardSlices m s hm, ih]
          by_cases hb : buf.isEmpty
          · rw [List.isEmpty_iff] at hb
            simp [hb, nwsJoin, nwsJoin_cons, nws_nil]
          · rw [if_neg hb]
            simp [nwsJoin_cons, nwsJoin, nws_nil, List.append_assoc]

theorem paraChunks_nws (m : Nat) (para : List Char) (hm : 0 < m) :
    nwsJoin (paraChunks m para) = nws para := by
  simp only [paraChunks]
  by_cases hpe : (pyStrip para).isEmpty
  · rw [List.isEmpty_iff] at hpe
    rw [if_pos (by simp [hpe])]
    rw [← nws_pyStrip para, hpe]
    simp [nwsJoin, nws_nil]
  · rw [if_neg hpe]
    by_cases hpm : (pyStrip para).length ≤ m
    · rw [if_pos hpm]
      simp [nwsJoin_cons, nwsJoin, nws_pyStrip]
    · rw [if_neg hpm, chunkLoop_nws m hm, splitSentences_nws, nws_pyStrip]
      simp [nws_nil]

theorem split_chunks_nws (t : List Char) (m : Nat) (hm : 0 < m) :
    nwsJoin (split_chunks t m) = nws t := by
  simp only [split_chunks]
  by_cases hp : (((pySplitNN t).map (paraChunks m)).flatten).isEmpty
  · rw [if_pos hp]
    simp [nwsJoin, nws_flatten]
  · rw [if_neg hp, nwsJoin_flatten, List.map_map]
    have hmap : (pySplitNN t).map (nwsJoin ∘ paraChunks m) = (pySplitNN t).map nws :=
      List.map_congr_left (fun p _ => paraChunks_nws m p hm)
    rw [hmap]
    have : ((pySplitNN t).map nws).flatten = nwsJoin (pySplitNN t) := rfl
    rw [this, pySplitNN, splitNNAux_nws]
    simp [nws_nil]

/-! ## Claim C1 -/

/-- C1 as stated is false: when no paragraph survives stripping, the
original text is returned unsplit as the single chunk (line 191,
`return parts or [text]`), and that chunk may exceed `max_chars` without
any sentence having been hard-split.  Concretely, five spaces with
`max_chars = 1` come back as one chunk of length 5. -/
theorem split_chunks_length_claim_false :
    ¬ (∀ c ∈ split_chunks "     ".data 1, c.length ≤ 1) := by decide

/-- C1 (amended): for every text and `max_chars > 0`, either every chunk
returned by `split_chunks` (hard-split slices included) has length
`≤ max_chars`, or the global fallback fired and the result is the original
text as a single chunk (which may be longer). -/
theorem split_chunks_length_amended (t : List Char) (m : Nat) (hm : 0 < m) :
    (∀ c ∈ split_chunks t m, c.length ≤ m) ∨ split_chunks t m = [t] := by
  by_cases hp : (((pySplitNN t).map (paraChunks m)).flatten).isEmpty
  · right
    simp only [split_chunks]
    rw [if_pos hp]
  · left
    intro c hc
    simp only [split_chunks] at hc
    rw [if_neg hp] at hc
    rw [List.mem_flatten] at hc
    obtain ⟨cl, hcl, hc⟩ := hc
    rw [List.mem_map] at hcl
    obtain ⟨para, _, rfl⟩ := hcl
    exact paraChunks_length_le m para c hc

/-- Witness for C1 (amended) at a concrete input. -/
theorem split_chunks_length_amended_witness :
    (∀ c ∈ split_chunks "A. B. C.".data 4, c.length ≤ 4) ∨
      split_chunks "A. B. C.".data 4 = ["A. B. C.".data] :=
  split_chunks_length_amended "A. B. C.".data 4 (by decide)

/-! ## Claim C3 -/

/-- C3: for every chapter text and every `max_chars > 0`, concatenating
all chunks of `split_chunks`, joined by a single space, reproduces the
chapter text up to whitespace differences only: the sequences of
non-whitespace characters coincide. -/
theorem split_chunks_content_preserved (t : List Char) (m : Nat) (hm : 0 < m) :
    nws (List.intercalate ['\x20'] (split_chunks t m)) = nws t := by
  rw [nws_intercalate_space, split_chunks_nws t m hm]

/-- Witness for C3 at a concrete input. -/
theorem split_chunks_content_preserved_witness :
    nws (List.intercalate ['\x20'] (split_chunks "A. B. C.".data 4)) = nws "A. B. C.".data :=
  split_chunks_content_preserved "A. B. C.".data 4 (by decide)

/-! ## Claim C5 -/

/-- C5: `split_chunks` always returns a non-empty sequence, and when no
paragraph survives stripping it returns the original unsplit text as the
single chunk (line 191). -/
theorem split_chunks_never_empty (t : List Char) (m : Nat) (hm : 0 < m) :
    split_chunks t m ≠ [] ∧
      ((∀ p ∈ pySplitNN t, pyStrip p = []) → split_chunks t m = [t]) := by
  constructor
  · simp only [split_chunks]
    by_cases hp : (((pySplitNN t).map (paraChunks m)).flatten).isEmpty
    · rw [if_pos hp]
      simp
    · rw [if_neg hp]
      intro he
      rw [he] at hp
      exact hp rfl
  · intro hall
    have hp : ((pySplitNN t).map (paraChunks m)).flatten = [] := by
      rw [List.flatten_eq_nil_iff]
      intro lch hl
      rw [List.mem_map] at hl
      obtain ⟨p, hp2, rfl⟩ := hl
      simp [paraChunks, hall p hp2]
    simp [split_chunks, hp]

/-- Witness for C5 at a concrete input. -/
theorem split_chunks_never_empty_witness :
    split_chunks [] 1 ≠ [] ∧ split_chunks [] 1 = [[]] :=
  ⟨(split_chunks_never_empty [] 1 (by decide)).1,
    (split_chunks_never_empty [] 1 (by decide)).2 (by decide)⟩

/-! ## Claim C6 -/

/-- C6: `split_chunks "A. B. C."` with `max_chars = 4` returns exactly
`["A.", "B.", "C."]`: the greedy accumulator flushes before each next
sentence because buffer length + 1 + sentence length would exceed 4. -/
theorem split_chunks_scenario_abc :
    split_chunks "A. B. C.".data 4 = ["A.".data, "B.".data, "C.".data] := by decide

/-! ## Flushed chapters contain a non-whitespace character -/

theorem pyStrip_pyStrip_eq_nil (x : List Char) (h : pyStrip (pyStrip x) = []) :
    pyStrip x = [] := by
  by_contra hne
  obtain ⟨c, hc1, hc2⟩ := exists_nonspace_of_pyStrip_ne_nil x hne
  exact hc2 ((pyStrip_eq_nil_iff _).1 h c hc1)

theorem txtFlushAdd_nonspace (title : Option (List Char)) (buffer : List (List Char))
    (chapters : List Chapter)
    (h : ∀ ch ∈ chapters, ∃ c ∈ ch.text, ¬ pySpace c) :
    ∀ ch ∈ txtFlushAdd title buffer chapters, ∃ c ∈ ch.text, ¬ pySpace c := by
  intro ch hch
  simp only [txtFlushAdd] at hch
  split at hch
  · exact h ch hch
  · rename_i hne
    rw [List.mem_append] at hch
    rcases hch with hch | hch
    · exact h ch hch
    · rw [List.mem_singleton] at hch
      subst hch
      have hne2 : pyStrip (List.intercalate nlSep buffer) ≠ [] := by
        intro he
        rw [he] at hne
        exact hne rfl
      exact exists_nonspace_of_pyStrip_ne_nil _ hne2

theorem docxFlushAdd_nonspace (title : Option (List Char)) (buffer : List (List Char))
    (chapters : List Chapter)
    (h : ∀ ch ∈ chapters, ∃ c ∈ ch.text, ¬ pySpace c) :
    ∀ ch ∈ docxFlushAdd title buffer chapters, ∃ c ∈ ch.text, ¬ pySpace c := by
  intro ch hch
  simp only [docxFlushAdd] at hch
  split at hch
  · exact h ch hch
  · rename_i hne
    rw [List.mem_append] at hch
    rcases hch with hch | hch
    · exact h ch hch
    · rw [List.mem_singleton] at hch
      subst hch
      have hne2 : pyStrip (List.intercalate nnSep buffer) ≠ [] := by
        intro he
        rw [he] at hne
        exact hne rfl
      exact exists_nonspace_of_pyStrip_ne_nil _ hne2

theorem txtLoop_nonspace : ∀ (lines : List (List Char)) (title : Option (List Char))
    (buffer : List (List Char)) (chapters : List Chapter),
    (∀ ch ∈ chapters, ∃ c ∈ ch.text, ¬ pySpace c) →
    ∀ ch ∈ txtLoop title buffer chapters lines, ∃ c ∈ ch.text, ¬ pySpace c := by
  intro lines
  induction lines with
  | nil =>
    intro title buffer chapters h ch hch
    simp only [txtLoop] at hch
    split at hch
    · exact h ch hch
    · exact txtFlushAdd_nonspace _ _ _ h ch hch
  | cons line rest ih =>
    intro title buffer chapters h ch hch
    simp only [txtLoop] at hch
    split at hch
    · by_cases hb : buffer.isEmpty
      · rw [if_pos hb] at hch
        exact ih _ _ _ h ch hch
      · rw [if_neg hb] at hch
        exact ih _ _ _ (txtFlushAdd_nonspace _ _ _ h) ch hch
    · exact ih _ _ _ h ch hch

theorem docxLoop_nonspace : ∀ (items : List (List Char × List Char))
    (title : Option (List Char)) (buffer : List (List Char)) (chapters : List Chapter),
    (∀ ch ∈ chapters, ∃ c ∈ ch.text, ¬ pySpace c) →
    ∀ ch ∈ docxLoop title buffer chapters items, ∃ c ∈ ch.text, ¬ pySpace c := by
  intro items
  induction items with
  | nil =>
    intro title buffer chapters h ch hch
    simp only [docxLoop] at hch
    split at hch
    · exact h ch hch
    · exact docxFlushAdd_nonspace _ _ _ h ch hch
  | cons p rest ih =>
    obtain ⟨style, text⟩ := p
    intro title buffer chapters h ch hch
    simp only [docxLoop] at hch
    split at hch
    · by_cases hb : buffer.isEmpty
      · rw [if_pos hb] at hch
        exact ih _ _ _ h ch hch
      · rw [if_neg hb] at hch
        exact ih _ _ _ (docxFlushAdd_nonspace _ _ _ h) ch hch
    · exact ih _ _ _ h ch hch

/-! ## Claim C2 -/

/-- C2 as stated is false: on an empty document the segmenter emits the
single fallback chapter `⟨"Book", ""⟩` whose text trims to the empty
string (lines 146-148). -/
theorem segmenter_text_nonempty_claim_false :
    ¬ (∀ ch ∈ read_txt_chapters [], pyStrip ch.text ≠ []) := by decide

/-- C2 (amended): both segmenters always return a non-empty sequence, and
every returned chapter whose text trims to empty is the single fallback
chapter `⟨"Book", ""⟩` (emitted only when nothing else was produced);
every other chapter's text is non-empty after trimming. -/
theorem segmenter_nonempty_amended (txt : List Char)
    (paras : List (List Char × List Char)) :
    (read_txt_chapters txt ≠ [] ∧
      ∀ ch ∈ read_txt_chapters txt, pyStrip ch.text = [] →
        read_txt_chapters txt = [⟨"Book".data, []⟩]) ∧
    (read_docx_chapters paras ≠ [] ∧
      ∀ ch ∈ read_docx_chapters paras, pyStrip ch.text = [] →
        read_docx_chapters paras = [⟨"Book".data, []⟩]) := by
  constructor
  · simp only [read_txt_chapters]
    by_cases hL : (txtLoop none [] [] ((pySplitlines txt).map pyRStrip)).isEmpty
    · rw [if_pos hL]
      refine ⟨by simp, ?_⟩
      intro ch hch he
      rw [List.mem_singleton] at hch
      subst hch
      simp only at he
      have : pyStrip (collapseBlank txt) = [] := pyStrip_pyStrip_eq_nil _ he
      rw [this]
    · rw [if_neg hL]
      refine ⟨fun he => hL (by simp [he]), ?_⟩
      intro ch hch he
      obtain ⟨c, hc1, hc2⟩ :=
        txtLoop_nonspace _ none [] [] (by simp) ch hch
      exact absurd ((pyStrip_eq_nil_iff _).1 he c hc1) hc2
  · simp only [read_docx_chapters]
    by_cases hL : (docxLoop none [] [] (docxItems paras)).isEmpty
    · rw [if_pos hL]
      refine ⟨by simp, ?_⟩
      intro ch hch he
      rw [List.mem_singleton] at hch
      subst hch
      simp only at he
      have : pyStrip (collapseBlank
          (List.intercalate nnSep ((docxItems paras).map (fun p => p.2)))) = [] :=
        pyStrip_pyStrip_eq_nil _ he
      rw [this]
    · rw [if_neg hL]
      refine ⟨fun he => hL (by simp [he]), ?_⟩
      intro ch hch he
      obtain ⟨c, hc1, hc2⟩ :=
        docxLoop_nonspace _ none [] [] (by simp) ch hch
      exact absurd ((pyStrip_eq_nil_iff _).1 he c hc1) hc2

/-- Witness for C2 (amended) at concrete inputs. -/
theorem segmenter_nonempty_amended_witness :
    read_txt_chapters [] ≠ [] ∧ read_txt_chapters [] = [⟨"Book".data, []⟩] ∧
      read_docx_chapters [] ≠ [] ∧ read_docx_chapters [] = [⟨"Book".data, []⟩] :=
  ⟨(segmenter_nonempty_amended [] []).1.1,
    (segmenter_nonempty_amended [] []).1.2 ⟨"Book".data, []⟩ (by decide) (by decide),
    (segmenter_nonempty_amended [] []).2.1,
    (segmenter_nonempty_amended [] []).2.2 ⟨"Book".data, []⟩ (by decide) (by decide)⟩

/-! ## Claim C4 -/

theorem txtLoop_noTrigger : ∀ (lines : List (List Char)) (title : Option (List Char))
    (buffer : List (List Char)) (chapters : List Chapter),
    (∀ l ∈ lines, txtTrigger l = false) →
    txtLoop title buffer chapters lines =
      if (buffer ++ lines).isEmpty then chapters
      else txtFlushAdd title (buffer ++ lines) chapters := by
  intro lines
  induction lines with
  | nil =>
    intro title buffer chapters _
    simp [txtLoop]
  | cons line rest ih =>
    intro title buffer chapters h
    have hl : txtTrigger line = false := h line (by simp)
    simp only [txtLoop]
    rw [if_neg (by simp [hl])]
    rw [ih _ _ _ (fun l hl2 => h l (by simp [hl2]))]
    rw [List.append_assoc, List.singleton_append]

theorem docxLoop_noTrigger : ∀ (items : List (List Char × List Char))
    (title : Option (List Char)) (buffer : List (List Char)) (chapters : List Chapter),
    (∀ p ∈ items, (docxHeading p.1 || docxKw p.2) = false) →
    docxLoop title buffer chapters items =
      if (buffer ++ items.map (fun p => p.2)).isEmpty then chapters
      else docxFlushAdd title (buffer ++ items.map (fun p => p.2)) chapters := by
  intro items
  induction items with
  | nil =>
    intro title buffer chapters _
    simp [docxLoop]
  | cons p rest ih =>
    obtain ⟨style, text⟩ := p
    intro title buffer chapters h
    have hl : (docxHeading style || docxKw text) = false := h (style, text) (by simp)
    simp only [docxLoop]
    rw [if_neg (by simp [hl])]
    rw [ih _ _ _ (fun q hq => h q (by simp [hq]))]
    simp only [List.map_cons]
    rw [List.append_assoc, List.singleton_append]

/-- C4 as stated is false: a plain-text document with content and no
heading-keyword line yields one chapter titled "Chapter 1" (the default
title of line 132), not "Book"; the "Book" fallback (line 147) fires only
when zero chapters were produced. -/
theorem no_trigger_book_claim_false :
    ((pySplitlines "Hello".data).map pyRStrip).all (fun l => !txtTrigger l) = true ∧
      read_txt_chapters "Hello".data ≠
        [⟨"Book".data, pyStrip (collapseBlank "Hello".data)⟩] ∧
      read_txt_chapters "Hello".data = [⟨"Chapter 1".data, "Hello".data⟩] := by decide

/-- C4 (amended): for a document with no heading-style paragraph and no
heading-keyword line, the segmenter returns exactly one chapter; its title
is the default placeholder ("Chapter 1" for plain text, "Untitled" for
docx) and its text the stripped join of the buffered content, except when
that join strips to empty, in which case the single chapter is the "Book"
fallback whose text is the whole document with runs of 3 or more newlines
collapsed (and stripped). -/
theorem no_trigger_single_chapter_amended (txt : List Char)
    (paras : List (List Char × List Char))
    (h1 : ∀ line ∈ (pySplitlines txt).map pyRStrip, txtTrigger line = false)
    (h2 : ∀ p ∈ docxItems paras, (docxHeading p.1 || docxKw p.2) = false) :
    read_txt_chapters txt =
      (if (pyStrip (List.intercalate nlSep ((pySplitlines txt).map pyRStrip))).isEmpty
       then [⟨"Book".data, pyStrip (collapseBlank txt)⟩]
       else [⟨"Chapter 1".data,
         pyStrip (List.intercalate nlSep ((pySplitlines txt).map pyRStrip))⟩]) ∧
    read_docx_chapters paras =
      (if (pyStrip (List.intercalate nnSep ((docxItems paras).map (fun p => p.2)))).isEmpty
       then [⟨"Book".data, pyStrip (collapseBlank
         (List.intercalate nnSep ((docxItems paras).map (fun p => p.2))))⟩]
       else [⟨"Untitled".data,
         pyStrip (List.intercalate nnSep ((docxItems paras).map (fun p => p.2)))⟩]) := by
  constructor
  · simp only [read_txt_chapters]
    rw [txtLoop_noTrigger _ _ _ _ h1, List.nil_append]
    by_cases hc : (pyStrip (List.intercalate nlSep ((pySplitlines txt).map pyRStrip))).isEmpty
    · rw [if_pos hc]
      by_cases hl : ((pySplitlines txt).map pyRStrip).isEmpty
      · rw [if_pos hl]
        simp
      · rw [if_neg hl]
        simp only [txtFlushAdd, hc, ite_true]
        simp
    · rw [if_neg hc]
      have hl : ¬ ((pySplitlines txt).map pyRStrip).isEmpty := by
        intro hl
        rw [List.isEmpty_iff] at hl
        rw [hl] at hc
        exact hc (by decide)
      rw [if_neg hl]
      simp only [txtFlushAdd, hc, ite_false]
      have ht : titleOr none (txtDefaultTitle 1) = "Chapter 1".data := by decide
      simp [ht]
  · simp only [read_docx_chapters]
    rw [docxLoop_noTrigger _ _ _ _ h2, List.nil_append]
    by_cases hc : (pyStrip (List.intercalate nnSep
        ((docxItems paras).map (fun p => p.2)))).isEmpty
    · rw [if_pos hc]
      by_cases hl : ((docxItems paras).map (fun p => p.2)).isEmpty
      · rw [if_pos hl]
        simp
      · rw [if_neg hl]
        simp only [docxFlushAdd, hc, ite_true]
        simp
    · rw [if_neg hc]
      have hl : ¬ ((docxItems paras).map (fun p => p.2)).isEmpty := by
        intro hl
        rw [List.isEmpty_iff] at hl
        rw [hl] at hc
        exact hc (by decide)
      rw [if_neg hl]
      simp only [docxFlushAdd, hc, ite_false]
      have ht : titleOr none "Untitled".data = "Untitled".data := by decide
      simp [ht]

/-- Witness for C4 (amended) at concrete inputs. -/
theorem no_trigger_single_chapter_amended_witness :
    read_txt_chapters "Hi".data = [⟨"Chapter 1".data, "Hi".data⟩] ∧
      read_docx_chapters [("Normal".data, "Hi there".data)] =
        [⟨"Untitled".data, "Hi there".data⟩] := by
  have h := no_trigger_single_chapter_amended "Hi".data
    [("Normal".data, "Hi there".data)] (by decide) (by decide)
  refine ⟨?_, ?_⟩
  · rw [h.1]
    decide
  · rw [h.2]
    decide

/-! ## Claim C7 -/

/-- C7: the plain-text input "Luku 1\nHello world.\n\nLuku 2\nBye." yields
exactly the two chapters ("Luku 1", "Hello world.") and ("Luku 2", "Bye."),
in order. -/
theorem read_txt_chapters_scenario_luku :
    read_txt_chapters "Luku 1\nHello world.\n\nLuku 2\nBye.".data =
      [⟨"Luku 1".data, "Hello world.".data⟩, ⟨"Luku 2".data, "Bye.".data⟩] := by decide

/-! ## Whitespace-only documents (C10) -/

theorem pySpace_toLower (c : Char) (h : pySpace c = true) : c.toLower = c := by
  have hn : c.toNat ∈ pySpaceCodes := by simpa [pySpace] using h
  simp only [pySpaceCodes, List.mem_cons, List.not_mem_nil, or_false] at hn
  simp only [Char.toLower]
  rw [if_neg (by omega)]

theorem txtTrigger_space (line : List Char) (h : ∀ c ∈ line, pySpace c) :
    txtTrigger line = false := by
  cases line with
  | nil => decide
  | cons c rest =>
    have hc : pySpace c = true := h c (by simp)
    have hlow : c.toLower = c := pySpace_toLower c hc
    have hsw : ∀ (p : Char) (ps : List Char), p.toLower ≠ c →
        startsWithCI (p :: ps) (c :: rest) = false := by
      intro p ps hne
      simp only [startsWithCI, hlow]
      simp [hne]
    have h1 : ('L' : Char).toLower ≠ c := by
      intro he
      rw [← he] at hc
      exact absurd hc (by decide)
    have h2 : ('C' : Char).toLower ≠ c := by
      intro he
      rw [← he] at hc
      exact absurd hc (by decide)
    have h3 : ('O' : Char).toLower ≠ c := by
      intro he
      rw [← he] at hc
      exact absurd hc (by decide)
    have e1 : "Luku".data = 'L' :: "uku".data := rfl
    have e2 : "Chapter".data = 'C' :: "hapter".data := rfl
    have e3 : "Osa".data = 'O' :: "sa".data := rfl
    simp only [txtTrigger, matchKwB, matchKwNum, e1, e2, e3,
      hsw 'L' _ h1, hsw 'C' _ h2, hsw 'O' _ h3]
    simp

theorem splitlinesAux_mem : ∀ (l : List Char) (skip : Bool) (acc : List Char)
    (line : List Char), line ∈ splitlinesAux skip acc l → ∀ c ∈ line, c ∈ acc ∨ c ∈ l := by
  intro l
  induction l with
  | nil =>
    intro skip acc line hline c hc
    simp only [splitlinesAux] at hline
    split at hline
    · simp at hline
    · rw [List.mem_singleton] at hline
      subst hline
      rw [List.mem_reverse] at hc
      exact Or.inl hc
  | cons d rest ih =>
    intro skip acc line hline c hc
    simp only [splitlinesAux] at hline
    split at hline
    · rcases ih _ _ _ hline c hc with h | h
      · exact Or.inl h
      · exact Or.inr (by simp [h])
    · split at hline
      · rcases List.mem_cons.1 hline with hline | hline
        · subst hline
          rw [List.mem_reverse] at hc
          exact Or.inl hc
        · rcases ih _ _ _ hline c hc with h | h
          · simp at h
          · exact Or.inr (by simp [h])
      · split at hline
        · rcases List.mem_cons.1 hline with hline | hline
          · subst hline
            rw [List.mem_reverse] at hc
            exact Or.inl hc
          · rcases ih _ _ _ hline c hc with h | h
            · simp at h
            · exact Or.inr (by simp [h])
        · rcases ih _ _ _ hline c hc with h | h
          · rcases List.mem_cons.1 h with h | h
            · exact Or.inr (by simp [h])
            · exact Or.inl h
          · exact Or.inr (by simp [h])

theorem collapseRun_space (n : Nat) : ∀ c ∈ collapseRun n, pySpace c := by
  intro c hc
  have : c = '\n' := by
    simp only [collapseRun] at hc
    split at hc
    · simpa using hc
    · exact List.eq_of_mem_replicate hc
  subst this
  decide

theorem collapseBlankAux_space : ∀ (l : List Char) (n : Nat), (∀ c ∈ l, pySpace c) →
    ∀ c ∈ collapseBlankAux n l, pySpace c := by
  intro l
  induction l with
  | nil =>
    intro n _ c hc
    exact collapseRun_space n c hc
  | cons d rest ih =>
    intro n h c hc
    simp only [collapseBlankAux] at hc
    split at hc
    · exact ih _ (fun x hx => h x (by simp [hx])) c hc
    · rw [List.mem_append] at hc
      rcases hc with hc | hc
      · exact collapseRun_space n c hc
      · rcases List.mem_cons.1 hc with hc | hc
        · subst hc
          exact h c (by simp)
        · exact ih _ (fun x hx => h x (by simp [hx])) c hc

/-! ## Claim C10 -/

/-- C10: for a document that is empty or whitespace-only, both segmenters
return exactly one chapter titled "Book" whose text is the empty string —
the fallback chapter's text may trim to empty at the public interface. -/
theorem whitespace_doc_book_fallback (txt : List Char)
    (paras : List (List Char × List Char))
    (h1 : ∀ c ∈ txt, pySpace c) (h2 : ∀ p ∈ paras, ∀ c ∈ p.2, pySpace c) :
    read_txt_chapters txt = [⟨"Book".data, []⟩] ∧
      read_docx_chapters paras = [⟨"Book".data, []⟩] := by
  constructor
  · have hlines : ∀ line ∈ (pySplitlines txt).map pyRStrip, ∀ c ∈ line, pySpace c := by
      intro line hline c hc
      rw [List.mem_map] at hline
      obtain ⟨l0, hl0, rfl⟩ := hline
      have hc0 : c ∈ l0 := (List.rdropWhile_prefix _ _).sublist.subset hc
      rcases splitlinesAux_mem txt false [] l0 hl0 c hc0 with h | h
      · simp at h
      · exact h1 c h
    have htrig : ∀ line ∈ (pySplitlines txt).map pyRStrip, txtTrigger line = false :=
      fun line hl => txtTrigger_space line (hlines line hl)
    have hcontent : pyStrip (List.intercalate nlSep ((pySplitlines txt).map pyRStrip)) = [] := by
      rw [pyStrip_eq_nil_iff]
      intro c hc
      rcases mem_intercalate nlSep _ c hc with h | ⟨x, hx, hcx⟩
      · have : c = '\n' := by simpa [nlSep] using h
        subst this
        decide
      · exact hlines x hx c hcx
    have hfb : pyStrip (collapseBlank txt) = [] := by
      rw [pyStrip_eq_nil_iff]
      exact fun c hc => collapseBlankAux_space txt 0 h1 c hc
    simp only [read_txt_chapters]
    rw [txtLoop_noTrigger _ _ _ _ htrig, List.nil_append]
    have hloop : (if ((pySplitlines txt).map pyRStrip).isEmpty then ([] : List Chapter)
        else txtFlushAdd none ((pySplitlines txt).map pyRStrip) []) = [] := by
      split
      · rfl
      · simp only [txtFlushAdd, hcontent]
        simp
    rw [hloop]
    simp [hfb]
  · have hitems : docxItems paras = [] := by
      simp only [docxItems]
      rw [List.filter_eq_nil_iff]
      intro p hp
      rw [List.mem_map] at hp
      obtain ⟨q, hq, rfl⟩ := hp
      have : pyStrip q.2 = [] := (pyStrip_eq_nil_iff _).2 (h2 q hq)
      simp [this]
    simp only [read_docx_chapters, hitems]
    decide

/-- Witness for C10 at concrete inputs. -/
theorem whitespace_doc_book_fallback_witness :
    read_txt_chapters "  \n ".data = [⟨"Book".data, []⟩] ∧
      read_docx_chapters [("Normal".data, " ".data)] = [⟨"Book".data, []⟩] :=
  whitespace_doc_book_fallback "  \n ".data [("Normal".data, " ".data)]
    (by decide) (by decide)

/-! ## Claim C9 -/

/-- C9 as stated is false: `ensure_percent` first trims surrounding
whitespace (line 56, `str(val).strip()`), which the claimed rule omits:
on `"-5 "` the code yields `"-5%"` while the claimed rule yields
`"-5 %"`. -/
theorem ensure_percent_claim_false :
    ensure_percent "-5 ".data ≠ ensurePercentClaim "-5 ".data := by decide

/-- C9 (amended): `ensure_percent` first trims surrounding whitespace,
then strips a trailing case-insensitive "db" suffix, then appends "%"
unless the string already ends in "%"; in particular the three spec
examples hold. -/
theorem ensure_percent_amended :
    (∀ s : List Char, ensure_percent s = ensurePercentClaim (pyStrip s)) ∧
      ensure_percent "-5".data = "-5%".data ∧
      ensure_percent "+3dB".data = "+3%".data ∧
      ensure_percent "10%".data = "10%".data :=
  ⟨fun _ => rfl, by decide, by decide, by decide⟩

/-! ## slugify: the initial whitespace strip is invisible in the result -/

/-- The run state of `replaceBadAux` after consuming a list. -/
def repState : Bool → List Char → Bool
  | b, [] => b
  | _, c :: rest => repState (!goodChar c) rest

/-- The previous-underscore state of `collapseUAux` after consuming a list. -/
def colState : Bool → List Char → Bool
  | b, [] => b
  | _, c :: rest => colState (if c = '_' then true else false) rest

theorem pySpace_not_good (c : Char) (h : pySpace c = true) : goodChar c = false := by
  have hn : c.toNat ∈ pySpaceCodes := by simpa [pySpace] using h
  simp only [pySpaceCodes, List.mem_cons, List.not_mem_nil, or_false] at hn
  simp only [goodChar, decide_eq_false_iff_not]
  omega

theorem replaceBadAux_append (t : List Char) : ∀ (b : Bool) (u : List Char),
    replaceBadAux b (t ++ u) = replaceBadAux b t ++ replaceBadAux (repState b t) u := by
  induction t with
  | nil => intro b u; simp [replaceBadAux, repState]
  | cons c rest ih =>
    intro b u
    by_cases hg : goodChar c
    · simp [replaceBadAux, repState, hg, ih]
    · cases b <;> simp [replaceBadAux, repState, hg, ih]

theorem collapseUAux_append (t : List Char) : ∀ (b : Bool) (u : List Char),
    collapseUAux b (t ++ u) = collapseUAux b t ++ collapseUAux (colState b t) u := by
  induction t with
  | nil => intro b u; simp [collapseUAux, colState]
  | cons c rest ih =>
    intro b u
    by_cases hc : c = '_'
    · cases b <;> simp [collapseUAux, colState, hc, ih]
    · cases b <;> simp [collapseUAux, colState, hc, ih]

theorem collapseUAux_true_replaceBad (s : List Char) :
    collapseUAux true (replaceBadAux true s) = collapseUAux true (replaceBadAux false s) := by
  cases s with
  | nil => rfl
  | cons c rest =>
    by_cases hg : goodChar c
    · simp [replaceBadAux, hg]
    · simp [replaceBadAux, hg, collapseUAux]

theorem dropWhile_collapseUAux (x : List Char) :
    (collapseUAux true x).dropWhile isDotU = (collapseUAux false x).dropWhile isDotU := by
  cases x with
  | nil => rfl
  | cons c rest =>
    by_cases hc : c = '_'
    · simp [collapseUAux, hc, List.dropWhile_cons, isDotU]
    · simp [collapseUAux, hc]

theorem slug_front_bad (w : Char) (hw : goodChar w = false) (t : List Char) :
    stripDotU (collapseU (replaceBad (w :: t))) = stripDotU (collapseU (replaceBad t)) := by
  have e1 : replaceBad (w :: t) = '_' :: replaceBadAux true t := by
    simp [replaceBad, replaceBadAux, hw]
  have e2 : ∀ y : List Char, collapseU ('_' :: y) = '_' :: collapseUAux true y := by
    intro y
    simp [collapseU, collapseUAux]
  have e3 : ∀ y : List Char,
      stripDotU ('_' :: y) = (y.dropWhile isDotU).rdropWhile isDotU := by
    intro y
    simp [stripDotU, List.dropWhile_cons, isDotU]
  rw [e1, e2, e3, collapseUAux_true_replaceBad, dropWhile_collapseUAux]
  rfl

theorem stripDotU_concat_dotU (y : List Char) (a : Char) (ha : isDotU a = true) :
    stripDotU (y ++ [a]) = stripDotU y := by
  simp only [stripDotU]
  rw [List.dropWhile_append]
  split
  · rename_i he
    rw [List.isEmpty_iff] at he
    rw [he]
    simp [List.dropWhile_cons, ha, List.rdropWhile_nil]
  · exact List.rdropWhile_concat_pos _ _ _ ha

theorem slug_back_bad (w : Char) (hw : goodChar w = false) (t : List Char) :
    stripDotU (collapseU (replaceBad (t ++ [w]))) = stripDotU (collapseU (replaceBad t)) := by
  rw [replaceBad, replaceBadAux_append]
  by_cases hb : repState false t = true
  · rw [hb]
    have : replaceBadAux true [w] = [] := by simp [replaceBadAux, hw]
    rw [this, List.append_nil]
    rfl
  · rw [Bool.eq_false_iff.2 hb]
    have : replaceBadAux false [w] = ['_'] := by simp [replaceBadAux, hw]
    rw [this, collapseU, collapseUAux_append]
    by_cases hcs : colState false (replaceBadAux false t) = true
    · rw [hcs]
      have : collapseUAux true ['_'] = [] := by simp [collapseUAux]
      rw [this, List.append_nil]
      rfl
    · rw [Bool.eq_false_iff.2 hcs]
      have : collapseUAux false ['_'] = ['_'] := by simp [collapseUAux]
      rw [this]
      exact stripDotU_concat_dotU _ '_' (by decide)

theorem slug_core_lstrip (l : List Char) :
    stripDotU (collapseU (replaceBad (l.dropWhile pySpace))) =
      stripDotU (collapseU (replaceBad l)) := by
  induction l with
  | nil => rfl
  | cons c rest ih =>
    by_cases hs : pySpace c
    · rw [List.dropWhile_cons, if_pos hs, ih, slug_front_bad c (pySpace_not_good c hs) rest]
    · rw [List.dropWhile_cons, if_neg hs]

theorem slug_core_rstrip (l : List Char) :
    stripDotU (collapseU (replaceBad (l.rdropWhile pySpace))) =
      stripDotU (collapseU (replaceBad l)) := by
  induction l using List.reverseRecOn with
  | nil => rfl
  | append_singleton t a ih =>
    by_cases hs : pySpace a
    · rw [List.rdropWhile_concat_pos _ _ _ hs, ih, slug_back_bad a (pySpace_not_good a hs) t]
    · rw [List.rdropWhile_concat_neg _ _ _ (by simpa using hs)]

theorem slugify_eq_claim (s : List Char) : slugify s = slugifyClaim s := by
  simp only [slugify, slugifyClaim]
  rw [show stripDotU (collapseU (replaceBad (pyStrip s))) =
      stripDotU (collapseU (replaceBad s)) by
    rw [pyStrip, pyRStrip, pyLStrip, slug_core_rstrip, slug_core_lstrip]]

/-! ## Claim C8 -/

/-- C8: `slugify` agrees, on every string, with the spec's slug rule —
replace each run of characters outside `[A-Za-z0-9_.-]` by one underscore,
collapse repeated underscores, strip leading and trailing `.` and `_`, and
fall back to "chapter" when empty — and the concrete example holds. -/
theorem slugify_matches_spec_rule :
    (∀ s : List Char, slugify s = slugifyClaim s) ∧
      slugify "Chapter: One/Two!".data = "Chapter_One_Two".data :=
  ⟨slugify_eq_claim, by decide⟩
